import Mathlib

/-!
Shallow embedding of the GitHub repository analysis tool (src/cli.py and
src/main.py) and proofs of the specification's testable properties.

The tool is a single linear batch pass: clone a branch into a scratch
directory, walk the tree, classify files by extension, extract Python
imports with a syntax-tree parse, aggregate language and dependency
counts, serialize, and delete the scratch directory.

Python strings are modelled as Lean `String` (lists of characters);
filesystem trees as an inductive of named files and directories; the
process state touched by the pipeline (the scratch clone directory and
the remote repository) is passed explicitly.  Machinery from external
libraries (the `ast` module, `pathlib`, `git`) is modelled by executable
Lean functions faithful to the documented behaviour of those libraries
on the fragment the program exercises; each such model is marked in its
doc comment.
-/

/-! ### Character and string utilities -/

/-- ASCII model of Python `str.lower()`: lowercase every character. -/
def str_lower (s : String) : String := ⟨s.data.map Char.toLower⟩

/-- Whitespace recognized when stripping a line (model of `str.strip()`
on source lines: space, tab, carriage return). -/
def is_ws (c : Char) : Bool := c = ' ' || c = '\t' || c = '\r'

/-- Strip leading and trailing whitespace from a character list. -/
def trim_chars (cs : List Char) : List Char :=
  ((cs.dropWhile is_ws).reverse.dropWhile is_ws).reverse

/-- Split a character list at every occurrence of the separator
(model of Python `str.split(sep)`; always returns at least one group). -/
def split_on_char (sep : Char) : List Char → List (List Char)
  | [] => [[]]
  | c :: rest =>
    match split_on_char sep rest with
    | [] => if c = sep then [[], []] else [[c]]
    | g :: gs => if c = sep then [] :: g :: gs else (c :: g) :: gs

/-! ### The import-extraction fragment of the Python syntax tree

`extract_imports` (main.py lines 106-123) calls `ast.parse` on the file
content and walks the resulting tree, collecting `ast.Import` and
`ast.ImportFrom` nodes.  The `ast` library is external to the
repository; it is modelled here on the fragment the program exercises:
a module is a sequence of lines, each either blank, a plain import
statement, or a from-import statement.  Any other line is a syntax
error of the fragment (real `ast.parse` accepts further statement forms
that contribute no names; no claim depends on those). -/

/-- Statements of the modelled Python syntax tree fragment.  `imp`
carries the imported module names (the `alias.name` fields of an
`ast.Import` node); `impFrom` carries the source module (`None` for
relative imports) and the imported names of an `ast.ImportFrom` node. -/
inductive PyStmt where
  | imp (names : List String)
  | impFrom (module : Option String) (names : List String)
deriving DecidableEq

/-- Characters allowed in a Python identifier (ASCII model). -/
def is_ident_char (c : Char) : Bool := c.isAlphanum || c = '_'

/-- A dotted module path: nonempty, identifier characters and dots. -/
def is_module_name (cs : List Char) : Bool :=
  !cs.isEmpty && cs.all (fun c => is_ident_char c || c = '.')

/-- Parse one comma-separated alias (`os`, `a.b`, `c as d`), yielding
its `alias.name`; `none` when malformed. -/
def parse_alias (cs : List Char) : Option String :=
  let t := trim_chars cs
  let w := t.takeWhile (fun c => c != ' ')
  let rest := trim_chars (t.dropWhile (fun c => c != ' '))
  if is_module_name w &&
      (rest.isEmpty ||
        (match rest with
         | 'a' :: 's' :: ' ' :: r => is_module_name (trim_chars r)
         | _ => false)) then
    some ⟨w⟩
  else none

/-- Parse the comma-separated alias list of an import statement. -/
def parse_names (cs : List Char) : Option (List String) :=
  let parts := (split_on_char ',' cs).map parse_alias
  if parts.all Option.isSome then some (parts.filterMap id) else none

/-- Parse one source line of the fragment: blank, `import` aliases, or
`from` module `import` aliases; anything else is a syntax error. -/
def parse_line (cs : List Char) : Except Unit (Option PyStmt) :=
  match trim_chars cs with
  | [] => Except.ok none
  | 'i' :: 'm' :: 'p' :: 'o' :: 'r' :: 't' :: ' ' :: rest =>
    match parse_names rest with
    | some names => Except.ok (some (PyStmt.imp names))
    | none => Except.error ()
  | 'f' :: 'r' :: 'o' :: 'm' :: ' ' :: rest =>
    match trim_chars ((trim_chars rest).dropWhile (fun c => c != ' ')) with
    | 'i' :: 'm' :: 'p' :: 'o' :: 'r' :: 't' :: ' ' :: ns =>
      if is_module_name ((trim_chars rest).takeWhile (fun c => c != ' ')) then
        match parse_names ns with
        | some names =>
          Except.ok (some (PyStmt.impFrom
            (some ⟨(trim_chars rest).takeWhile (fun c => c != ' ')⟩) names))
        | none => Except.error ()
      else Except.error ()
    | _ => Except.error ()
  | _ => Except.error ()

/-- Parse a list of source lines into the statement list. -/
def parse_lines : List (List Char) → Except Unit (List PyStmt)
  | [] => Except.ok []
  | l :: rest =>
    match parse_line l, parse_lines rest with
    | Except.ok st, Except.ok stmts =>
      Except.ok (match st with | some s => s :: stmts | none => stmts)
    | _, _ => Except.error ()

/-- Model of `ast.parse` on the import fragment: split the content into
lines and parse each; a syntax error anywhere fails the whole parse. -/
def ast_parse (content : String) : Except Unit (List PyStmt) :=
  parse_lines (split_on_char '\n' content.data)

/-- Names contributed by one statement: an `Import` node contributes
each `alias.name`; an `ImportFrom` node contributes
`f"{module}.{name}"` with `module = node.module or ''`
(main.py lines 113-120). -/
def stmt_imports : PyStmt → List String
  | PyStmt.imp names => names
  | PyStmt.impFrom module names => names.map (fun n => module.getD "" ++ "." ++ n)

/-- main.py `extract_imports` (lines 106-123): for `"python"` content,
parse and walk the tree appending names in discovery order (`ast.walk`
visits the module node, then its statements left to right); on a parse
failure the exception is caught, a warning logged, and the empty list
returned; for any other language the list stays empty. -/
def extract_imports (content : String) (language : String) : List String :=
  if language = "python" then
    match ast_parse content with
    | Except.ok stmts => stmts.foldl (fun acc s => acc ++ stmt_imports s) []
    | Except.error _ => []
  else []

/-! ### Language detection -/

/-- main.py `language_map` (lines 96-103): the fixed extension table. -/
def language_map : List (String × String) :=
  [(".py", "python"), (".js", "javascript"), (".ts", "typescript"),
   (".java", "java"), (".cpp", "cpp"), (".go", "go")]

/-- main.py `detect_language` (lines 94-104):
`language_map.get(file_extension.lower(), 'unknown')`. -/
def detect_language (file_extension : String) : String :=
  match language_map.lookup (str_lower file_extension) with
  | some l => l
  | none => "unknown"

/-! ### Path manipulation (model of `pathlib` / `os.path`) -/

/-- Model of `pathlib.PurePath.name`: the characters after the last
`'/'` separator. -/
def path_basename (p : String) : String :=
  ⟨(p.data.reverse.takeWhile (fun c => c != '/')).reverse⟩

/-- Suffix of a file name under the `pathlib` rule: the segment from
the last dot on, provided that dot is neither the first nor the last
character of the name (`name[i:] if 0 < i < len(name) - 1 else ''`). -/
def name_suffix (cs : List Char) : List Char :=
  if 0 < (cs.reverse.takeWhile (fun c => c != '.')).length ∧
      (cs.reverse.takeWhile (fun c => c != '.')).length < cs.length - 1 then
    '.' :: (cs.reverse.takeWhile (fun c => c != '.')).reverse
  else []

/-- Model of `pathlib.Path(file_path).suffix`: the suffix of the
path's final component. -/
def path_suffix (p : String) : String := ⟨name_suffix (path_basename p).data⟩

/-! ### Per-file analysis -/

/-- main.py `FileContext` dataclass (lines 14-21). -/
structure FileContext where
  path : String
  content : String
  language : String
  imports : List String
  dependencies : List String
  description : String
deriving DecidableEq

/-- main.py `analyze_dependencies` (lines 125-129): the simplified
version always returns the empty list. -/
def analyze_dependencies (content : String) (language : String) : List String := []

/-- main.py `generate_file_description` (lines 131-134): a fixed
templated placeholder string. -/
def generate_file_description (content : String) (language : String) : String :=
  "Source code file in " ++ language

/-- main.py `analyze_file_content` (lines 76-92): the file content is
read (here passed in), the language detected from the path's suffix,
and imports and dependencies extracted. -/
def analyze_file_content (file_path : String) (content : String) : FileContext :=
  { path := file_path
    content := content
    language := detect_language (path_suffix file_path)
    imports := extract_imports content (detect_language (path_suffix file_path))
    dependencies := analyze_dependencies content (detect_language (path_suffix file_path))
    description := generate_file_description content (detect_language (path_suffix file_path)) }

/-! ### Filesystem trees -/

/-- A directory entry: a named file with content, or a named directory
with an ordered list of children (the listing order stands for the
order `os.scandir` / `Path.iterdir` happens to produce). -/
inductive FsNode where
  | file (name : String) (content : String)
  | dir (name : String) (children : List FsNode)

/-- The name of an entry. -/
def FsNode.name : FsNode → String
  | FsNode.file n _ => n
  | FsNode.dir n _ => n

/-- `item.name.startswith('.')` (main.py line 64). -/
def hidden_name (n : String) : Bool :=
  match n.data with
  | '.' :: _ => true
  | _ => false

/-- The skip condition of `build_structure` (main.py line 64):
hidden entries and `__pycache__`. -/
def skip_entry (n : String) : Bool := hidden_name n || n == "__pycache__"

/-- Values of the nested structure dictionary: files map to `None`
(here `leaf`), directories to a sub-dictionary. -/
inductive StructVal where
  | leaf
  | sub (entries : List (String × StructVal))

/-- main.py `analyze_file_structure` / `build_structure` (lines 57-74):
iterate over the entries in listing order, skip hidden names and
`__pycache__`, map files to `None` and directories to their
recursively built sub-dictionary. -/
def build_structure : List FsNode → List (String × StructVal)
  | [] => []
  | FsNode.file n _ :: rest =>
    if skip_entry n then build_structure rest
    else (n, StructVal.leaf) :: build_structure rest
  | FsNode.dir n cs :: rest =>
    if skip_entry n then build_structure rest
    else (n, StructVal.sub (build_structure cs)) :: build_structure rest

/-! ### The os.walk file-collection loop -/

/-- Python `str.endswith(s)`: the pattern is a suffix of the string. -/
def ends_with (s : String) (name : String) : Bool := decide (s.data <:+ name.data)

/-- The extension tuple of main.py line 152 (note: no `.cpp`). -/
def source_suffixes : List String := [".py", ".js", ".java", ".ts", ".go"]

/-- `filename.endswith(('.py', '.js', '.java', '.ts', '.go'))`. -/
def endswith_source (name : String) : Bool :=
  source_suffixes.any (fun s => ends_with s name)

/-- The `os.walk` loop of `analyze_repository` (main.py lines 148-155):
every file whose name ends in one of `source_suffixes` is analyzed at
path `os.path.join(root, filename)`.  `os.walk` emits the files of a
directory before the contents of its subdirectories; the visiting
order of sibling subdirectories is filesystem-dependent and fixed
arbitrarily here (no property below depends on it). -/
def collect_files : String → List FsNode → List FileContext
  | _, [] => []
  | root, FsNode.file n c :: rest =>
    if endswith_source n then
      analyze_file_content (root ++ "/" ++ n) c :: collect_files root rest
    else collect_files root rest
  | root, FsNode.dir n cs :: rest =>
    collect_files root rest ++ collect_files (root ++ "/" ++ n) cs

/-- Well-formedness of a tree as a real filesystem listing: no file
name contains the path separator. -/
def good_names : List FsNode → Bool
  | [] => true
  | FsNode.file n _ :: rest => !(decide ('/' ∈ n.data)) && good_names rest
  | FsNode.dir _ cs :: rest => good_names cs && good_names rest

/-! ### Aggregation -/

/-- The `d[k] = d.get(k, 0) + 1` update on an insertion-ordered
association list (the model of a Python dict used as a counter). -/
def bump (m : List (String × Nat)) (k : String) : List (String × Nat) :=
  match m with
  | [] => [(k, 1)]
  | (k', v) :: rest => if k' = k then (k', v + 1) :: rest else (k', v) :: bump rest k

/-- The counting loop of `detect_main_languages` (main.py lines
180-182). -/
def language_count (files : List FileContext) : List (String × Nat) :=
  files.foldl (fun m f => bump m f.language) []

/-- Stable insertion into a list sorted by non-increasing count: the
new element goes in front of the first element whose count does not
exceed it. -/
def insert_desc (x : String × Nat) : List (String × Nat) → List (String × Nat)
  | [] => [x]
  | y :: ys => if y.2 ≤ x.2 then x :: y :: ys else y :: insert_desc x ys

/-- `sorted(language_count.items(), key=lambda x: x[1], reverse=True)`
(main.py line 185).  Python's sort is stable and `reverse=True` orders
by non-increasing key while keeping ties in first-seen order; a stable
sort's output under a total preorder is unique, so this insertion sort
computes the same list. -/
def sorted_language_counts (files : List FileContext) : List (String × Nat) :=
  (language_count files).foldr insert_desc []

/-- main.py `detect_main_languages` (lines 178-186). -/
def detect_main_languages (files : List FileContext) : List String :=
  (sorted_language_counts files).map Prod.fst

/-- main.py `aggregate_dependencies` (lines 188-194): tally every
dependency name of every file. -/
def aggregate_dependencies (files : List FileContext) : List (String × Nat) :=
  files.foldl (fun m f => f.dependencies.foldl bump m) []

/-- Total of all counts in a frequency mapping. -/
def dict_total (m : List (String × Nat)) : Nat := (m.map Prod.snd).sum

/-! ### The pipeline -/

/-- Externally visible actions of a run, used to state that reuse does
not clone and that a missing credential stops before any work. -/
inductive Effect where
  | clone
  | walk
  | write
deriving DecidableEq

/-- main.py `RepoContext` dataclass (lines 23-30).  The `structure`
field is named `struct` here (`structure` is a Lean keyword). -/
structure RepoContext where
  repo_name : String
  branch : String
  files : List FileContext
  struct : List (String × StructVal)
  main_languages : List String
  dependencies : List (String × Nat)

/-- `temp_dir = f"temp_repo_{branch}"` (main.py line 139). -/
def temp_dir (branch : String) : String := "temp_repo_" ++ branch

/-- `repo_url.split('/')[-1]` (main.py line 159). -/
def repo_name_of (repo_url : String) : String :=
  ⟨(split_on_char '/' repo_url.data).getLastD []⟩

/-- main.py `clone_repository` (lines 44-55) over explicit state:
`local_path` is the tree at the clone path (`none` when the path does
not exist), `remote` the remote repository tree (`none` when cloning
fails).  When the path exists the existing copy is returned without
cloning; otherwise `Repo.clone_from` runs (emitting the `clone`
effect) and its failure is logged and re-raised. -/
def clone_repository (local_path : Option (List FsNode))
    (remote : Option (List FsNode)) :
    Option (List FsNode) × List Effect × Except String (List FsNode) :=
  match local_path with
  | some t => (some t, [], Except.ok t)
  | none =>
    match remote with
    | some r => (some r, [Effect.clone], Except.ok r)
    | none => (none, [Effect.clone], Except.error "Error cloning repository")

/-- main.py `analyze_repository` (lines 136-176): clone (or reuse),
build the structure dictionary, walk and analyze the source files,
assemble the context, save it; the `finally` block removes the scratch
directory if it exists, on success and on failure alike.  The first
component is the final state of the scratch path, the second the
effects performed, the third the outcome. -/
def analyze_repository (local_path : Option (List FsNode))
    (remote : Option (List FsNode)) (repo_url : String) (branch : String) :
    Option (List FsNode) × List Effect × Except String RepoContext :=
  match clone_repository local_path remote with
  | (_, effs, Except.error e) => (none, effs, Except.error e)
  | (_, effs, Except.ok t) =>
    let files := collect_files (temp_dir branch) t
    (none, effs ++ [Effect.walk, Effect.write],
      Except.ok
        { repo_name := repo_name_of repo_url
          branch := branch
          files := files
          struct := build_structure t
          main_languages := detect_main_languages files
          dependencies := aggregate_dependencies files })

/-- cli.py `analyze_repo` (lines 10-23): read the credential from the
environment (`none` when the variable is absent); `if not github_token`
is true for an absent or empty value, in which case a
`ClickException` is raised before the agent is constructed — no clone,
no walk, no output; otherwise the analysis runs. -/
def analyze_repo (env_token : Option String) (local_path : Option (List FsNode))
    (remote : Option (List FsNode)) (repo_url : String) (branch : String) :
    Option (List FsNode) × List Effect × Except String RepoContext :=
  match env_token with
  | none => (local_path, [], Except.error "Please set the GITHUB_TOKEN environment variable")
  | some tok =>
    if tok = "" then
      (local_path, [], Except.error "Please set the GITHUB_TOKEN environment variable")
    else analyze_repository local_path remote repo_url branch

/-! ### Helper lemmas: association-list lookup -/

/-- A successful lookup returns a pair of the list. -/
theorem lookup_pair_mem (l : List (String × String)) (k v : String)
    (h : List.lookup k l = some v) : (k, v) ∈ l := by
  induction l with
  | nil => simp [List.lookup] at h
  | cons p t ih =>
    obtain ⟨a, b⟩ := p
    by_cases hk : k = a
    · subst hk
      have hb : b = v := by simpa [List.lookup] using h
      subst hb
      exact List.mem_cons_self _ _
    · have hne : (k == a) = false := beq_eq_false_iff_ne.mpr hk
      have ht : List.lookup k t = some v := by simpa [List.lookup, hne] using h
      exact List.mem_cons_of_mem _ (ih ht)

/-- A key present among the first components is found by lookup. -/
theorem lookup_some_of_mem_keys (l : List (String × String)) (k : String)
    (h : k ∈ l.map Prod.fst) : ∃ v, List.lookup k l = some v := by
  induction l with
  | nil => simp at h
  | cons p t ih =>
    obtain ⟨a, b⟩ := p
    simp only [List.map_cons, List.mem_cons] at h
    rcases h with hk | hk
    · exact ⟨b, by simp [List.lookup, hk]⟩
    · by_cases hka : k = a
      · exact ⟨b, by simp [List.lookup, hka]⟩
      · obtain ⟨v, hv⟩ := ih hk
        exact ⟨v, by simp [List.lookup, beq_eq_false_iff_ne.mpr hka, hv]⟩

/-- C1: for the Python source text `"import os"`, newline,
`"from a.b import c"`, extract_imports with language `"python"`
returns exactly `["os", "a.b.c"]`: the plain import contributes the
module name, the from-import the module path joined to the imported
name by a dot, in discovery order. -/
theorem extract_imports_os_from_ab_import_c :
    extract_imports "import os\nfrom a.b import c" "python" = ["os", "a.b.c"] := by
  decide

/-- C2 counterexample: the claim that any extension outside the
six-entry table maps to `"unknown"` fails as stated: `".PY"` is not a
key of the table, yet detect_language returns `"python"`, because the
lookup is applied to the lowercased extension. -/
theorem detect_language_upper_py_counterexample :
    detect_language ".PY" = "python" ∧ ".PY" ∉ language_map.map Prod.fst := by
  constructor
  · decide
  · decide

/-- C2 amended: detect_language looks up the lowercased extension in
the fixed six-entry table: the result is always a table value or
`"unknown"`; an extension whose lowercased form is not a table key
yields `"unknown"`, and one whose lowercased form is a key yields a
table value; in particular `".py"` yields `"python"` and `".xyz"`
yields `"unknown"`. -/
theorem detect_language_table_spec :
    (∀ ext, detect_language ext = "unknown" ∨
      detect_language ext ∈ language_map.map Prod.snd)
    ∧ (∀ ext, str_lower ext ∉ language_map.map Prod.fst →
        detect_language ext = "unknown")
    ∧ (∀ ext, str_lower ext ∈ language_map.map Prod.fst →
        detect_language ext ∈ language_map.map Prod.snd)
    ∧ detect_language ".py" = "python" ∧ detect_language ".xyz" = "unknown" := by
  refine ⟨?_, ?_, ?_, by decide, by decide⟩
  · intro ext
    unfold detect_language
    cases hl : List.lookup (str_lower ext) language_map with
    | none => exact Or.inl rfl
    | some v =>
      exact Or.inr (List.mem_map_of_mem Prod.snd (lookup_pair_mem _ _ _ hl))
  · intro ext h
    unfold detect_language
    cases hl : List.lookup (str_lower ext) language_map with
    | none => rfl
    | some v =>
      exact absurd (List.mem_map_of_mem Prod.fst (lookup_pair_mem _ _ _ hl)) h
  · intro ext h
    obtain ⟨v, hv⟩ := lookup_some_of_mem_keys _ _ h
    unfold detect_language
    rw [hv]
    exact List.mem_map_of_mem Prod.snd (lookup_pair_mem _ _ _ hv)

/-- C2 witness: the amended theorem applied at the concrete extension
`".xyz"`, whose lowercase form is not a table key. -/
theorem detect_language_table_spec_witness :
    detect_language ".xyz" = "unknown" :=
  detect_language_table_spec.2.1 ".xyz" (by decide)

/-- C6: with the credential environment variable absent, the command
fails with the user-facing message before any analysis work: the
filesystem state is untouched and no clone, walk, or write effect is
performed. -/
theorem analyze_repo_missing_token (local_path remote : Option (List FsNode))
    (repo_url branch : String) :
    analyze_repo none local_path remote repo_url branch
      = (local_path, [],
          Except.error "Please set the GITHUB_TOKEN environment variable") := rfl

/-- C7: after any run of analyze_repository — returning normally or
failing — the scratch clone directory no longer exists: the `finally`
block removes it unconditionally. -/
theorem analyze_repository_cleanup (local_path remote : Option (List FsNode))
    (repo_url branch : String) :
    (analyze_repository local_path remote repo_url branch).1 = none := by
  cases local_path <;> cases remote <;> rfl

/-! ### Helper lemmas: the structure dictionary -/

/-- The keys of the structure dictionary are exactly the names of the
entries that survive the skip condition, in listing order. -/
theorem build_structure_keys (items : List FsNode) :
    (build_structure items).map Prod.fst
      = (items.filter (fun e => !skip_entry e.name)).map FsNode.name := by
  induction items with
  | nil => simp [build_structure]
  | cons e rest ih =>
    cases e with
    | file n c =>
      by_cases h : skip_entry n
      · simp [build_structure, h, FsNode.name, ih]
      · simp [build_structure, h, FsNode.name, ih]
    | dir n cs =>
      by_cases h : skip_entry n
      · simp [build_structure, h, FsNode.name, ih]
      · simp [build_structure, h, FsNode.name, ih]

/-- A non-skipped file entry appears as a leaf. -/
theorem build_structure_mem_file (items : List FsNode) (n c : String)
    (hmem : FsNode.file n c ∈ items) (hskip : skip_entry n = false) :
    (n, StructVal.leaf) ∈ build_structure items := by
  induction items with
  | nil => simp at hmem
  | cons e rest ih =>
    rcases List.mem_cons.mp hmem with he | he
    · subst he
      simp [build_structure, hskip]
    · cases e with
      | file m d =>
        by_cases h : skip_entry m
        · rw [show build_structure (FsNode.file m d :: rest)
              = build_structure rest from by simp [build_structure, h]]
          exact ih he
        · rw [show build_structure (FsNode.file m d :: rest)
              = (m, StructVal.leaf) :: build_structure rest from by
              simp [build_structure, h]]
          exact List.mem_cons_of_mem _ (ih he)
      | dir m ds =>
        by_cases h : skip_entry m
        · rw [show build_structure (FsNode.dir m ds :: rest)
              = build_structure rest from by simp [build_structure, h]]
          exact ih he
        · rw [show build_structure (FsNode.dir m ds :: rest)
              = (m, StructVal.sub (build_structure ds)) :: build_structure rest
              from by simp [build_structure, h]]
          exact List.mem_cons_of_mem _ (ih he)

/-- A non-skipped directory entry appears with its recursively built
sub-dictionary. -/
theorem build_structure_mem_dir (items : List FsNode) (n : String)
    (cs : List FsNode) (hmem : FsNode.dir n cs ∈ items)
    (hskip : skip_entry n = false) :
    (n, StructVal.sub (build_structure cs)) ∈ build_structure items := by
  induction items with
  | nil => simp at hmem
  | cons e rest ih =>
    rcases List.mem_cons.mp hmem with he | he
    · subst he
      simp [build_structure, hskip]
    · cases e with
      | file m d =>
        by_cases h : skip_entry m
        · rw [show build_structure (FsNode.file m d :: rest)
              = build_structure rest from by simp [build_structure, h]]
          exact ih he
        · rw [show build_structure (FsNode.file m d :: rest)
              = (m, StructVal.leaf) :: build_structure rest from by
              simp [build_structure, h]]
          exact List.mem_cons_of_mem _ (ih he)
      | dir m ds =>
        by_cases h : skip_entry m
        · rw [show build_structure (FsNode.dir m ds :: rest)
              = build_structure rest from by simp [build_structure, h]]
          exact ih he
        · rw [show build_structure (FsNode.dir m ds :: rest)
              = (m, StructVal.sub (build_structure ds)) :: build_structure rest
              from by simp [build_structure, h]]
          exact List.mem_cons_of_mem _ (ih he)

/-- C3 counterexample: the structure mapping does not contain exactly
the non-hidden entries: a directory named `__pycache__` is not hidden
(its name does not start with a dot) yet is omitted from the mapping. -/
theorem build_structure_pycache_counterexample :
    build_structure [FsNode.dir "__pycache__" []] = []
      ∧ hidden_name "__pycache__" = false := by
  constructor
  · simp [build_structure, skip_entry]
  · decide

/-- C3 amended: the structure mapping contains exactly the entries
that are neither hidden nor named `__pycache__`, in listing order,
files mapped to the leaf marker and directories to their recursively
built sub-mapping; in particular a tree of only hidden entries yields
the empty mapping. -/
theorem build_structure_spec (items : List FsNode) :
    ((build_structure items).map Prod.fst
        = (items.filter (fun e => !skip_entry e.name)).map FsNode.name)
    ∧ ((∀ e ∈ items, hidden_name e.name = true) → build_structure items = [])
    ∧ (∀ n c, FsNode.file n c ∈ items → skip_entry n = false →
        (n, StructVal.leaf) ∈ build_structure items)
    ∧ (∀ n cs, FsNode.dir n cs ∈ items → skip_entry n = false →
        (n, StructVal.sub (build_structure cs)) ∈ build_structure items) := by
  refine ⟨build_structure_keys items, ?_, ?_, ?_⟩
  · intro hall
    have hfil : items.filter (fun e => !skip_entry e.name) = [] := by
      rw [List.filter_eq_nil_iff]
      intro e he
      simp [skip_entry, hall e he]
    have hkeys := build_structure_keys items
    rw [hfil] at hkeys
    simp only [List.map_nil] at hkeys
    exact List.map_eq_nil_iff.mp hkeys
  · intro n c hmem hskip
    exact build_structure_mem_file items n c hmem hskip
  · intro n cs hmem hskip
    exact build_structure_mem_dir items n cs hmem hskip

/-- C3 witness: the amended theorem applied to a tree containing only
the hidden file `".gitignore"`, whose mapping is empty. -/
theorem build_structure_spec_witness :
    build_structure [FsNode.file ".gitignore" "x"] = [] :=
  (build_structure_spec [FsNode.file ".gitignore" "x"]).2.1
    (by intro e he; simp at he; subst he; decide)

/-! ### Helper lemmas: stable descending sort -/

/-- Insertion permutes: the result is the element consed to the list. -/
theorem insert_desc_perm (x : String × Nat) (l : List (String × Nat)) :
    (insert_desc x l).Perm (x :: l) := by
  induction l with
  | nil => simp [insert_desc]
  | cons y ys ih =>
    rw [insert_desc]
    by_cases hc : y.2 ≤ x.2
    · rw [if_pos hc]
    · rw [if_neg hc]
      exact (ih.cons y).trans (List.Perm.swap x y ys)

/-- Insertion preserves sortedness by non-increasing count. -/
theorem insert_desc_pairwise (x : String × Nat) (l : List (String × Nat))
    (h : l.Pairwise (fun a b => b.2 ≤ a.2)) :
    (insert_desc x l).Pairwise (fun a b => b.2 ≤ a.2) := by
  induction l with
  | nil => simp [insert_desc]
  | cons y ys ih =>
    obtain ⟨hy, hys⟩ := List.pairwise_cons.mp h
    rw [insert_desc]
    by_cases hc : y.2 ≤ x.2
    · rw [if_pos hc]
      refine List.pairwise_cons.mpr ⟨?_, h⟩
      intro b hb
      rcases List.mem_cons.mp hb with rfl | hb
      · exact hc
      · exact le_trans (hy b hb) hc
    · rw [if_neg hc]
      refine List.pairwise_cons.mpr ⟨?_, ih hys⟩
      intro b hb
      rcases List.mem_cons.mp ((insert_desc_perm x ys).mem_iff.mp hb) with rfl | hb
      · exact le_of_lt (lt_of_not_le hc)
      · exact hy b hb

/-- The insertion sort is sorted by non-increasing count. -/
theorem foldr_insert_desc_pairwise (l : List (String × Nat)) :
    (l.foldr insert_desc []).Pairwise (fun a b => b.2 ≤ a.2) := by
  induction l with
  | nil => simp
  | cons x xs ih => exact insert_desc_pairwise x _ ih

/-- The insertion sort permutes its input. -/
theorem foldr_insert_desc_perm (l : List (String × Nat)) :
    (l.foldr insert_desc []).Perm l := by
  induction l with
  | nil => simp
  | cons x xs ih =>
    exact (insert_desc_perm x (xs.foldr insert_desc [])).trans (ih.cons x)

/-- C4: the language list of detect_main_languages is ordered by
non-increasing per-language file count: it is the first projection of
the sorted count list, which is pairwise non-increasing in its counts
and a permutation of the tallied language counts (for equal counts no
order is specified by the claim; the sort is stable, preserving
first-seen order). -/
theorem detect_main_languages_sorted_desc (files : List FileContext) :
    detect_main_languages files = (sorted_language_counts files).map Prod.fst
    ∧ (sorted_language_counts files).Pairwise (fun a b => b.2 ≤ a.2)
    ∧ (sorted_language_counts files).Perm (language_count files) :=
  ⟨rfl, foldr_insert_desc_pairwise _, foldr_insert_desc_perm _⟩

/-! ### Helper lemmas: dependency aggregation -/

/-- One bump adds exactly one to the total count. -/
theorem dict_total_bump (m : List (String × Nat)) (k : String) :
    dict_total (bump m k) = dict_total m + 1 := by
  induction m with
  | nil => simp [bump, dict_total]
  | cons p rest ih =>
    obtain ⟨a, v⟩ := p
    by_cases h : a = k
    · simp only [bump, if_pos h, dict_total, List.map_cons, List.sum_cons]
      omega
    · simp only [bump, if_neg h, dict_total, List.map_cons, List.sum_cons]
      have := ih
      simp only [dict_total] at this
      omega

/-- One bump adds exactly the bumped key to the key set. -/
theorem mem_keys_bump (m : List (String × Nat)) (k d : String) :
    d ∈ (bump m k).map Prod.fst ↔ d ∈ m.map Prod.fst ∨ d = k := by
  induction m with
  | nil => simp [bump]
  | cons p rest ih =>
    obtain ⟨a, v⟩ := p
    by_cases h : a = k
    · subst h
      simp [bump]
      tauto
    · simp only [bump, if_neg h, List.map_cons, List.mem_cons, ih]
      tauto

/-- Folding bump over a name list adds the list's length to the total. -/
theorem dict_total_foldl_bump (deps : List String) (m : List (String × Nat)) :
    dict_total (deps.foldl bump m) = dict_total m + deps.length := by
  induction deps generalizing m with
  | nil => simp
  | cons d rest ih =>
    simp only [List.foldl_cons, List.length_cons, ih, dict_total_bump]
    omega

/-- Folding bump over a name list adds its elements to the key set. -/
theorem mem_keys_foldl_bump (deps : List String) (m : List (String × Nat))
    (d : String) :
    d ∈ (deps.foldl bump m).map Prod.fst
      ↔ d ∈ m.map Prod.fst ∨ d ∈ deps := by
  induction deps generalizing m with
  | nil => simp
  | cons x rest ih =>
    simp only [List.foldl_cons, ih, mem_keys_bump, List.mem_cons]
    tauto

/-- The aggregate total over any starting mapping. -/
theorem aggregate_total_aux (files : List FileContext) (m : List (String × Nat)) :
    dict_total (files.foldl (fun acc f => f.dependencies.foldl bump acc) m)
      = dict_total m + (files.map (fun f => f.dependencies.length)).sum := by
  induction files generalizing m with
  | nil => simp
  | cons f rest ih =>
    simp only [List.foldl_cons, List.map_cons, List.sum_cons, ih,
      dict_total_foldl_bump]
    omega

/-- The aggregate key set over any starting mapping. -/
theorem aggregate_keys_aux (files : List FileContext) (m : List (String × Nat))
    (d : String) :
    d ∈ (files.foldl (fun acc f => f.dependencies.foldl bump acc) m).map Prod.fst
      ↔ d ∈ m.map Prod.fst ∨ ∃ f ∈ files, d ∈ f.dependencies := by
  induction files generalizing m with
  | nil => simp
  | cons f rest ih =>
    simp only [List.foldl_cons, ih, mem_keys_foldl_bump, List.mem_cons]
    constructor
    · rintro ((hm | hf) | ⟨g, hg, hd⟩)
      · exact Or.inl hm
      · exact Or.inr ⟨f, Or.inl rfl, hf⟩
      · exact Or.inr ⟨g, Or.inr hg, hd⟩
    · rintro (hm | ⟨g, hg | hg, hd⟩)
      · exact Or.inl (Or.inl hm)
      · subst hg; exact Or.inl (Or.inr hd)
      · exact Or.inr ⟨g, hg, hd⟩

/-- C8: the counts in the dependency frequency mapping sum to the
total length of the files' dependency lists, and its key set is
exactly the union of those lists' elements. -/
theorem aggregate_dependencies_spec (files : List FileContext) :
    dict_total (aggregate_dependencies files)
        = (files.map (fun f => f.dependencies.length)).sum
    ∧ ∀ d, d ∈ (aggregate_dependencies files).map Prod.fst
        ↔ ∃ f ∈ files, d ∈ f.dependencies := by
  constructor
  · simpa [dict_total] using aggregate_total_aux files []
  · intro d
    simpa using aggregate_keys_aux files [] d

/-- C8 witness: the theorem applied to one concrete file record with
dependency list `["os"]`: its total is 1 and `"os"` is a key. -/
theorem aggregate_dependencies_spec_witness :
    dict_total (aggregate_dependencies
        [⟨"a.py", "", "python", ["os"], ["os"], "d"⟩]) = 1
      ∧ "os" ∈ (aggregate_dependencies
        [⟨"a.py", "", "python", ["os"], ["os"], "d"⟩]).map Prod.fst := by
  constructor
  · exact (aggregate_dependencies_spec _).1
  · exact ((aggregate_dependencies_spec _).2 "os").mpr
      ⟨⟨"a.py", "", "python", ["os"], ["os"], "d"⟩, by simp, by simp⟩

/-- C5: when parsing a Python file's source fails, that file's import
list is empty — both at extract_imports directly and through
analyze_file_content (the exception is caught inside extract_imports,
so nothing propagates) — and the walk continues over the remaining
files: in a concrete tree holding an unparseable file and a good one,
both files are analyzed, the bad one with an empty import list. -/
theorem extract_imports_parse_failure :
    (∀ file_path content, ast_parse content = Except.error () →
      extract_imports content "python" = []
      ∧ (analyze_file_content file_path content).imports = [])
    ∧ (collect_files "temp_repo_main"
        [FsNode.file "bad.py" "import(", FsNode.file "good.py" "import os"]).map
          (fun f => f.imports) = [[], ["os"]] := by
  constructor
  · intro file_path content h
    constructor
    · simp [extract_imports, h]
    · show extract_imports content (detect_language (path_suffix file_path)) = []
      by_cases hl : detect_language (path_suffix file_path) = "python"
      · rw [hl]
        simp [extract_imports, h]
      · simp [extract_imports, hl]
  · simp only [collect_files]
    rw [if_pos (by decide), if_pos (by decide)]
    decide

/-- C5 witness: the theorem applied at the concrete unparseable
content `"import("` (a syntax error for `ast.parse` as well). -/
theorem extract_imports_parse_failure_witness :
    extract_imports "import(" "python" = []
      ∧ (analyze_file_content "x.py" "import(").imports = [] :=
  extract_imports_parse_failure.1 "x.py" "import(" (by rfl)

/-- C9 counterexample: running the pipeline twice does re-clone even
when the scratch path is already cloned at the start: the first run's
guaranteed cleanup deletes the scratch directory, so the second run
performs a clone effect. -/
theorem analyze_repository_second_run_reclones :
    Effect.clone ∈ (analyze_repository
        (analyze_repository (some []) (some []) "u" "main").1
        (some []) "u" "main").2.1 := by
  have h1 : (analyze_repository (some []) (some []) "u" "main").1 = none := rfl
  rw [h1]
  show Effect.clone ∈ [Effect.clone, Effect.walk, Effect.write]
  exact List.mem_cons_self _ _

/-- C9 amended: within one run the fetch is idempotent — when the
local clone path already exists, clone_repository returns the existing
copy with no clone effect — but analyze_repository unconditionally
deletes the scratch directory before returning, so a later run starts
from an absent path and clones again. -/
theorem clone_repository_reuse_spec :
    (∀ (t : List FsNode) (remote : Option (List FsNode)),
        clone_repository (some t) remote = (some t, [], Except.ok t))
    ∧ ∀ (local_path remote : Option (List FsNode)) (repo_url branch : String),
        (analyze_repository local_path remote repo_url branch).1 = none := by
  constructor
  · intro t remote
    rfl
  · intro local_path remote repo_url branch
    cases local_path <;> cases remote <;> rfl

/-! ### Helper lemmas: paths and suffixes -/

/-- takeWhile over an accepted block followed by a rejected element
returns exactly the block. -/
theorem takeWhile_append_stop (p : Char → Bool) (l₁ : List Char) (c : Char)
    (l₂ : List Char) (h₁ : ∀ x ∈ l₁, p x = true) (hc : p c = false) :
    (l₁ ++ c :: l₂).takeWhile p = l₁ := by
  induction l₁ with
  | nil => simp [List.takeWhile_cons, hc]
  | cons a t ih =>
    have ha : p a = true := h₁ a (List.mem_cons_self a t)
    simp only [List.cons_append, List.takeWhile_cons, ha, if_true]
    rw [ih (fun x hx => h₁ x (List.mem_cons_of_mem a hx))]

/-- The basename of a joined path whose final component has no
separator is that component. -/
theorem path_basename_append (root n : String) (h : '/' ∉ n.data) :
    path_basename (root ++ "/" ++ n) = n := by
  unfold path_basename
  have hd : (root ++ "/" ++ n).data = root.data ++ '/' :: n.data := by
    rw [String.data_append, String.data_append]
    simp
  rw [hd, List.reverse_append]
  have hrev : ('/' :: n.data).reverse ++ root.data.reverse
      = n.data.reverse ++ '/' :: root.data.reverse := by
    simp
  rw [hrev, takeWhile_append_stop _ _ _ _
    (fun x hx => by
      have hxn : x ∈ n.data := List.mem_reverse.mp hx
      have : x ≠ '/' := fun he => h (he ▸ hxn)
      simpa using this)
    (by decide)]
  rw [List.reverse_reverse]

/-- The suffix of a name ending in a dot followed by a dot-free block
has length zero (dotfile case) or the block's length plus one. -/
theorem name_suffix_length_of_tail (q w : List Char)
    (hw : ∀ x ∈ w, (x != '.') = true) :
    (name_suffix (q ++ '.' :: w)).length = 0
      ∨ (name_suffix (q ++ '.' :: w)).length = w.length + 1 := by
  have ht : ((q ++ '.' :: w).reverse.takeWhile (fun c => c != '.'))
      = w.reverse := by
    rw [List.reverse_append, List.reverse_cons, List.append_assoc]
    have : ['.'] ++ q.reverse = '.' :: q.reverse := rfl
    rw [this]
    exact takeWhile_append_stop _ _ _ _
      (fun x hx => hw x (List.mem_reverse.mp hx)) (by decide)
  unfold name_suffix
  rw [ht]
  split
  · right
    simp
  · left
    rfl

/-- Only the lowercased extension `".cpp"` is classified `"cpp"`. -/
theorem detect_language_eq_cpp (ext : String)
    (h : detect_language ext = "cpp") : str_lower ext = ".cpp" := by
  unfold detect_language at h
  cases hl : List.lookup (str_lower ext) language_map with
  | none =>
    rw [hl] at h
    exact absurd h (by decide)
  | some v =>
    rw [hl] at h
    have hmem := lookup_pair_mem language_map (str_lower ext) v hl
    rw [show v = "cpp" from h] at hmem
    simpa [language_map, Prod.ext_iff] using hmem

/-- A file name ending in one of the analyzed source extensions never
classifies as `"cpp"`: its pathlib suffix has length 0, 3 or 5, while
any case variant of `".cpp"` has length 4. -/
theorem language_of_source_ext_ne_cpp (n : String)
    (hend : endswith_source n = true) :
    detect_language ⟨name_suffix n.data⟩ ≠ "cpp" := by
  intro hcpp
  have hlow : str_lower ⟨name_suffix n.data⟩ = ".cpp" :=
    detect_language_eq_cpp _ hcpp
  have hlen : (name_suffix n.data).length = 4 := by
    have hc := congrArg (fun s : String => s.data.length) hlow
    simpa [str_lower] using hc
  have hcases : (".py".data <:+ n.data) ∨ (".js".data <:+ n.data)
      ∨ (".java".data <:+ n.data) ∨ (".ts".data <:+ n.data)
      ∨ (".go".data <:+ n.data) := by
    simpa [endswith_source, source_suffixes, ends_with] using hend
  have step : ∀ w : List Char, (∀ x ∈ w, (x != '.') = true) →
      w.length + 1 ≠ 4 → ¬((['.'] ++ w) <:+ n.data) := by
    intro w hw hne hsuf
    obtain ⟨q, hq⟩ := hsuf
    have hl := name_suffix_length_of_tail q w hw
    rw [show q ++ ('.' :: w) = q ++ ['.'] ++ w from by simp] at hl
    rw [show q ++ ['.'] ++ w = q ++ (['.'] ++ w) from by simp, hq] at hl
    omega
  rcases hcases with h | h | h | h | h
  · exact step ['p', 'y'] (by decide) (by decide) h
  · exact step ['j', 's'] (by decide) (by decide) h
  · exact step ['j', 'a', 'v', 'a'] (by decide) (by decide) h
  · exact step ['t', 's'] (by decide) (by decide) h
  · exact step ['g', 'o'] (by decide) (by decide) h

/-- C10: in a well-formed tree (file names free of the path
separator), every FileContext produced by the walk loop has a path
whose basename ends in one of the five analyzed extensions — so only
such files are ever analyzed — and its language is never `"cpp"`,
although `"cpp"` sits in the language table: `.cpp` is missing from
the endswith tuple. -/
theorem collect_files_only_source_exts (root : String) (items : List FsNode)
    (hgood : good_names items = true) :
    ∀ fc ∈ collect_files root items,
      endswith_source (path_basename fc.path) = true ∧ fc.language ≠ "cpp" := by
  revert hgood
  induction root, items using collect_files.induct with
  | case1 root =>
    intro hgood fc hfc
    simp [collect_files] at hfc
  | case2 root n c rest hend ih =>
    intro hgood fc hfc
    simp only [good_names, Bool.and_eq_true, Bool.not_eq_eq_eq_not,
      Bool.not_true, decide_eq_false_iff_not] at hgood
    rw [show collect_files root (FsNode.file n c :: rest)
        = analyze_file_content (root ++ "/" ++ n) c :: collect_files root rest
        from by rw [collect_files, if_pos hend]] at hfc
    rcases List.mem_cons.mp hfc with rfl | hfc
    · have hbase : path_basename ((root ++ "/" ++ n)) = n :=
        path_basename_append root n hgood.1
      constructor
      · show endswith_source (path_basename (root ++ "/" ++ n)) = true
        rw [hbase]
        exact hend
      · show detect_language (path_suffix (root ++ "/" ++ n)) ≠ "cpp"
        unfold path_suffix
        rw [hbase]
        exact language_of_source_ext_ne_cpp n hend
    · exact ih (by simpa using hgood.2) fc hfc
  | case3 root n c rest hend ih =>
    intro hgood fc hfc
    simp only [good_names, Bool.and_eq_true] at hgood
    rw [show collect_files root (FsNode.file n c :: rest)
        = collect_files root rest from by rw [collect_files, if_neg hend]] at hfc
    exact ih (by simp [good_names, hgood]) fc hfc
  | case4 root n cs rest ih1 ih2 =>
    intro hgood fc hfc
    simp only [good_names, Bool.and_eq_true] at hgood
    rw [show collect_files root (FsNode.dir n cs :: rest)
        = collect_files root rest ++ collect_files (root ++ "/" ++ n) cs
        from by rw [collect_files]] at hfc
    rcases List.mem_append.mp hfc with hfc | hfc
    · exact ih1 hgood.2 fc hfc
    · exact ih2 hgood.1 fc hfc

/-- C10 witness: the theorem applied to a concrete well-formed tree,
at the record produced for its single analyzed file. -/
theorem collect_files_only_source_exts_witness :
    (analyze_file_content ("temp_repo_main" ++ "/" ++ "a.py") "x = 1").language
      ≠ "cpp" := by
  have h := collect_files_only_source_exts "temp_repo_main"
    [FsNode.file "a.py" "x = 1", FsNode.file "b.cpp" "int x;"]
    (by simp [good_names])
  refine (h (analyze_file_content ("temp_repo_main" ++ "/" ++ "a.py") "x = 1") ?_).2
  rw [collect_files, if_pos (by decide)]
  rw [collect_files, if_neg (by decide)]
  rw [collect_files]
  exact List.mem_singleton.mpr rfl
